import Mathlib

/-!
Verification of the schema-inference and document-kind-detection engine of
the CosmosDB-with-Mongo-API reverse-engineering plugin
(src/reverse_engineering/api.js), as a shallow embedding in Lean 4.

The embedding covers:
  - JavaScript runtime values as seen by the engine, including reference
    identity for arrays and objects (needed because Array.prototype.indexOf
    compares with strict equality, which is reference equality for objects);
  - the two type classifiers the source uses: the toString-based typeOf
    helper inside generateCustomInferSchema, and the JS typeof operator
    used in getDocumentKindDataFromInfer;
  - generateCustomInferSchema (api.js lines 411-447);
  - getDocumentKindDataFromInfer (api.js lines 364-409), both the
    custom-infer branch and the alternate flavor-string branch.
-/

/-- A JavaScript runtime value as the engine sees it.  Arrays and objects
carry a reference identity (a Nat tag standing for the heap address) in
addition to their structure: JS strict equality on them compares the
reference, not the structure. -/
inductive JsVal where
  | null : JsVal
  | boolv : Bool → JsVal
  | num : Int → JsVal
  | str : String → JsVal
  | arr : Nat → List JsVal → JsVal
  | obj : Nat → List (String × JsVal) → JsVal

/-- JS strict equality (the comparison Array.prototype.indexOf performs):
value comparison on primitives, reference comparison on arrays/objects. -/
def strictEq : JsVal → JsVal → Bool
  | .null, .null => true
  | .boolv a, .boolv b => a == b
  | .num a, .num b => a == b
  | .str a, .str b => a == b
  | .arr r _, .arr r2 _ => r == r2
  | .obj r _, .obj r2 _ => r == r2
  | _, _ => false

mutual

/-- Deep / structural value equality: equality of the values once reference
identity is forgotten. -/
def structEq : JsVal → JsVal → Bool
  | .null, .null => true
  | .boolv a, .boolv b => a == b
  | .num a, .num b => a == b
  | .str a, .str b => a == b
  | .arr _ xs, .arr _ ys => structEqList xs ys
  | .obj _ xs, .obj _ ys => structEqFields xs ys
  | _, _ => false

/-- Pointwise structural equality of array element lists. -/
def structEqList : List JsVal → List JsVal → Bool
  | [], [] => true
  | x :: xs, y :: ys => structEq x y && structEqList xs ys
  | _, _ => false

/-- Pointwise structural equality of object field lists. -/
def structEqFields : List (String × JsVal) → List (String × JsVal) → Bool
  | [], [] => true
  | (k, v) :: xs, (k2, v2) :: ys => k == k2 && structEq v v2 && structEqFields xs ys
  | _, _ => false

end

/-- The toString-based type classifier defined inside
generateCustomInferSchema (api.js line 412):
Object.prototype.toString tags, lowercased. -/
def typeOf : JsVal → String
  | .null => "null"
  | .boolv _ => "boolean"
  | .num _ => "number"
  | .str _ => "string"
  | .arr _ _ => "array"
  | .obj _ _ => "object"

/-- The JS typeof operator, as used on samples[0] in
getDocumentKindDataFromInfer (api.js line 377).  Note typeof null and
typeof of an array are both the string object. -/
def jsTypeof : JsVal → String
  | .null => "object"
  | .boolv _ => "boolean"
  | .num _ => "number"
  | .str _ => "string"
  | .arr _ _ => "object"
  | .obj _ _ => "object"

/-- A sanitized document: an ordered association of top-level field names to
values, in property-insertion order (the order a for..in loop visits). -/
abbrev JsDoc := List (String × JsVal)

/-- Lookup in an insertion-ordered association list (JS property access). -/
def alistFind {α : Type} (l : List (String × α)) (k : String) : Option α :=
  (l.find? (fun p => p.1 == k)).map (fun p => p.2)

/-- In-place update of an existing key in an insertion-ordered association
list (JS assignment to an existing property keeps its position). -/
def alistUpdate {α : Type} (l : List (String × α)) (k : String) (v : α) :
    List (String × α) :=
  l.map (fun p => if p.1 == k then (k, v) else p)

/-- The per-field profile generateCustomInferSchema accumulates: field
docs is the JS "#docs" counter, pctDocs the "%docs" percentage, samples the
deduplicated sample list, type the last-written type tag. -/
structure FieldProfile where
  docs : Nat
  pctDocs : Nat
  samples : List JsVal
  type : String

/-- The inferred schema: total document count ("#docs") and the per-field
profiles in property-insertion order. -/
structure InferSchema where
  docs : Nat
  properties : List (String × FieldProfile)

/-- Whether indexOf(v) === -1 holds on a sample list: no element of the
list is strictly equal to v. -/
def notSampled (samples : List JsVal) (v : JsVal) : Bool :=
  samples.all (fun s => !(strictEq s v))

/-- The update a repeat occurrence applies to an existing profile
(api.js lines 429-431): increment "#docs", append the value to samples only
when indexOf misses and the list is below sampleSize, overwrite the type. -/
def profStep (sampleSize : Nat) (p : FieldProfile) (v : JsVal) : FieldProfile :=
  { docs := p.docs + 1, pctDocs := p.pctDocs,
    samples :=
      if notSampled p.samples v ∧ p.samples.length < sampleSize then
        p.samples ++ [v]
      else p.samples,
    type := typeOf v }

/-- The profile a first occurrence creates (api.js lines 433-438). -/
def profInit (v : JsVal) : FieldProfile :=
  { docs := 1, pctDocs := 100, samples := [v], type := typeOf v }

/-- One property of one document folded into the profile map
(api.js lines 427-440). -/
def inferProp (sampleSize : Nat) (props : List (String × FieldProfile))
    (prop : String) (v : JsVal) : List (String × FieldProfile) :=
  match alistFind props prop with
  | some p => alistUpdate props prop (profStep sampleSize p v)
  | none => props ++ [(prop, profInit v)]

/-- All properties of one document folded into the profile map, in
property order (the inner for..in loop of api.js lines 427-440). -/
def inferDoc (sampleSize : Nat) (props : List (String × FieldProfile)) :
    JsDoc → List (String × FieldProfile)
  | [] => props
  | (k, v) :: rest => inferDoc sampleSize (inferProp sampleSize props k v) rest

/-- The scan over all documents (api.js lines 424-441), threading the
document counter and the profile map. -/
def inferScan (sampleSize : Nat) (total : Nat)
    (props : List (String × FieldProfile)) :
    List JsDoc → Nat × List (String × FieldProfile)
  | [] => (total, props)
  | d :: rest => inferScan sampleSize (total + 1) (inferDoc sampleSize props d) rest

/-- Math.round((docs / total) * 100) for natural docs and positive total,
computed exactly: JS Math.round on a non-negative argument is
floor(x + 1/2), and floor(docs*100/total + 1/2) = (200*docs + total) / (2*total)
in natural division. -/
def roundPct (docs total : Nat) : Nat :=
  (200 * docs + total) / (2 * total)

/-- The effective sample size: params.sampleSize || 30, so an absent or
zero sampleSize falls back to 30 (api.js line 416). -/
def effSampleSize : Option Nat → Nat
  | none => 30
  | some 0 => 30
  | some (n + 1) => n + 1

/-- The final "%docs" recomputation applied to one profile
(api.js lines 443-445). -/
def finalizeProf (total : Nat) (q : FieldProfile) : FieldProfile :=
  { q with pctDocs := roundPct q.docs total }

/-- generateCustomInferSchema (api.js lines 411-447): scan the documents
building per-field profiles, then recompute every "%docs" as
Math.round(docs / total * 100).  The bucketName argument is unused by the
source logic and kept only for signature fidelity. -/
def generateCustomInferSchema (_bucketName : String) (documents : List JsDoc)
    (sampleSizeParam : Option Nat) : InferSchema :=
  let sampleSize := effSampleSize sampleSizeParam
  let (total, props) := inferScan sampleSize 0 [] documents
  { docs := total,
    properties := props.map (fun p => (p.1, finalizeProf total p.2)) }

/-- The value of field k in the last document of the sequence that has
field k, or none when no document has it.  Used to state the
last-write-wins behaviour of the type tag. -/
def lastValue (k : String) : List JsDoc → Option JsVal
  | [] => none
  | d :: rest =>
      match lastValue k rest with
      | some v => some v
      | none => alistFind d k

/-- Input to getDocumentKindDataFromInfer, as a tagged union over the two
modes the source distinguishes with data.isCustomInfer (api.js line 372).
In custom mode the fields are data.inference (the schema) and
data.excludeDocKind; in alternate mode they are data.flavorValue (possibly
absent or empty, both falsy) and, from data.inference[0], the Flavor string
and the top-level property names. -/
inductive InferInput where
  | custom : InferSchema → List String → InferInput
  | alternate : Option String → String → List String → InferInput

/-- The record getDocumentKindDataFromInfer returns (api.js lines 400-406). -/
structure DocumentKindData where
  bucketName : String
  documentList : List String
  documentKind : String
  otherDocKinds : List String

/-- The state of the custom-infer scan: the two output lists, minCount
(none standing for the initial Infinity), and the running documentKind
accumulator with its key and probability. -/
structure DKState where
  suggested : List String
  others : List String
  minCount : Option Nat
  dkKey : String
  dkProb : Nat

/-- The initial detector state (api.js lines 365-370 and 373). -/
def dkInit : DKState :=
  { suggested := [], others := [], minCount := none, dkKey := "", dkProb := 0 }

/-- The eligibility test of api.js line 377: "%docs" at or above the
probability threshold, a non-empty samples list, and typeof of the first
sample different from the string object. -/
def candidateCond (probability : Nat) (p : FieldProfile) : Bool :=
  decide (probability ≤ p.pctDocs) &&
    (match p.samples with
     | [] => false
     | v :: _ => !(jsTypeof v == "object"))

/-- samples.length < minCount, where minCount = none is the initial
Infinity (every length is below it). -/
def ltMinCount (n : Nat) : Option Nat → Bool
  | none => true
  | some m => decide (n < m)

/-- One key of the custom-infer loop body (api.js lines 377-389): an
eligible key is pushed on suggestedDocKinds and, when not excluded and both
running comparisons pass, becomes the new documentKind accumulator; an
ineligible key is pushed on otherDocKinds. -/
def dkStep (excludeDocKind : List String) (probability : Nat)
    (s : DKState) (kv : String × FieldProfile) : DKState :=
  if candidateCond probability kv.2 then
    if kv.1 ∈ excludeDocKind then { s with suggested := s.suggested ++ [kv.1] }
    else if s.dkProb ≤ kv.2.pctDocs ∧ ltMinCount kv.2.samples.length s.minCount then
      { s with suggested := s.suggested ++ [kv.1],
               minCount := some kv.2.samples.length,
               dkProb := kv.2.pctDocs, dkKey := kv.1 }
    else { s with suggested := s.suggested ++ [kv.1] }
  else { s with others := s.others ++ [kv.1] }

/-- The custom-infer loop over the property map (api.js lines 376-390). -/
def dkLoop (excludeDocKind : List String) (probability : Nat) :
    List (String × FieldProfile) → DKState → DKState
  | [], s => s
  | kv :: rest, s => dkLoop excludeDocKind probability rest (dkStep excludeDocKind probability s kv)

/-- The flavor string the alternate branch splits (api.js line 392):
data.flavorValue when truthy (present and non-empty), else
data.inference[0].Flavor. -/
def effectiveFlavor (flavorValue : Option String) (flavor0 : String) : String :=
  match flavorValue with
  | some fv => if fv = "" then flavor0 else fv
  | none => flavor0

/-- Split a character list at every occurrence of a separator character,
the way JS String.prototype.split with a one-character separator does
(the empty list yields one empty piece, as empty-string.split does). -/
def splitChar (sep : Char) : List Char → List (List Char)
  | [] => [[]]
  | c :: rest =>
      let r := splitChar sep rest
      if c = sep then [] :: r
      else (c :: r.headD []) :: r.tail

/-- JS String.prototype.split with a one-character separator. -/
def jsSplit (sep : Char) (s : String) : List String :=
  (splitChar sep s.toList).map (fun l => String.mk l)

/-- The part of a character list before the first occurrence of a
(non-empty) separator sequence, or none when the separator never occurs. -/
def beforeFirstSep (sep : List Char) : List Char → Option (List Char)
  | [] => none
  | c :: rest =>
      if sep.isPrefixOf (c :: rest) then some []
      else match beforeFirstSep sep rest with
        | none => none
        | some pre => some (c :: pre)

/-- The regex match of api.js line 395 reduced to what it computes on the
key side: the pattern anchors at the end, takes the lazy first capture
group up to the first occurrence of the space-equals-space separator, and
succeeds exactly when that separator occurs somewhere.  Returns the first
capture group (the key); none models a null match. -/
def flavorKeyMatch (s : String) : Option String :=
  (beforeFirstSep [' ', '=', ' '] s.toList).map (fun l => String.mk l)

/-- getDocumentKindDataFromInfer (api.js lines 364-409).  The alternate
branch can throw a TypeError (reading .length of a null match) when the
single flavor assignment has no space-equals-space separator; that failure
is the Except.error case.  The custom branch never fails. -/
def getDocumentKindDataFromInfer (bucketName : String) (data : InferInput)
    (probability : Nat) : Except String DocumentKindData :=
  match data with
  | .custom schema excludeDocKind =>
      let s := dkLoop excludeDocKind probability schema.properties dkInit
      .ok { bucketName := bucketName, documentList := s.suggested,
            documentKind := s.dkKey, otherDocKinds := s.others }
  | .alternate flavorValue flavor0 propKeys =>
      let flavor := jsSplit (',') (effectiveFlavor flavorValue flavor0)
      if flavor.length = 1 then
        match flavorKeyMatch (flavor.headD "") with
        | none => .error "TypeError: cannot read property length of null"
        | some key =>
            .ok { bucketName := bucketName, documentList := propKeys,
                  documentKind := key, otherDocKinds := [] }
      else
        .ok { bucketName := bucketName, documentList := [],
              documentKind := "", otherDocKinds := [] }

/-- A profile of a field appearing in 500 of 1000 documents (docPercent
round(500/1000*100) = 50). -/
def exProfile50 : FieldProfile :=
  { docs := 500, pctDocs := 50, samples := [JsVal.str "x"], type := "string" }

/-- A one-field schema over 1000 documents whose field has docPercent 50. -/
def exSchemaC2 : InferSchema :=
  { docs := 1000, properties := [("f", exProfile50)] }

/-- The status profile of the example in the spec: 2 distinct values across 100
documents, docPercent 100. -/
def statusProfile : FieldProfile :=
  { docs := 100, pctDocs := 100,
    samples := [JsVal.str "active", JsVal.str "closed"], type := "string" }

/-- The id profile of the example in the spec: 100 distinct values across 100
documents, docPercent 100. -/
def idProfile : FieldProfile :=
  { docs := 100, pctDocs := 100,
    samples := (List.range 100).map (fun i => JsVal.num i), type := "number" }

/-- The example schema of the spec: status with 2 distinct sampled values and id
with 100, both with docPercent 100 over 100 documents. -/
def statusIdSchema : InferSchema :=
  { docs := 100, properties := [("status", statusProfile), ("id", idProfile)] }

/-- A field whose first (and only) sampled value is null: typeof null is
the string object. -/
def nullProfile : FieldProfile :=
  { docs := 100, pctDocs := 100, samples := [JsVal.null], type := "null" }

/-- A one-field schema whose field holds null in every sampled document. -/
def nullSchema : InferSchema :=
  { docs := 100, properties := [("n", nullProfile)] }

/-- An eligible field with docPercent 95 and 5 distinct sampled values. -/
def greedyProfileA : FieldProfile :=
  { docs := 95, pctDocs := 95,
    samples := [JsVal.str "a1", JsVal.str "a2", JsVal.str "a3",
                JsVal.str "a4", JsVal.str "a5"], type := "string" }

/-- An eligible field with docPercent 90 and 3 distinct sampled values. -/
def greedyProfileB : FieldProfile :=
  { docs := 90, pctDocs := 90,
    samples := [JsVal.str "b1", JsVal.str "b2", JsVal.str "b3"],
    type := "string" }

/-- A schema on which the greedy scan does not pick the lowest-cardinality
candidate: the first field has a higher docPercent, so the second, smaller
candidate can never replace it. -/
def greedySchema : InferSchema :=
  { docs := 100, properties := [("a", greedyProfileA), ("b", greedyProfileB)] }

/-- Two one-field documents carrying structurally equal but referentially
distinct arrays. -/
def twinArrayDocs : List JsDoc :=
  [[("a", JsVal.arr 0 [JsVal.num 1])], [("a", JsVal.arr 1 [JsVal.num 1])]]

/-! Association-list lemmas -/

theorem alistFind_nil {α : Type} (k : String) :
    alistFind ([] : List (String × α)) k = none := rfl

theorem alistFind_cons {α : Type} (p : String × α) (l : List (String × α)) (k : String) :
    alistFind (p :: l) k = if p.1 = k then some p.2 else alistFind l k := by
  by_cases h : p.1 = k
  · rw [alistFind, List.find?_cons_of_pos _ (by simpa using h)]
    simp [h]
  · rw [alistFind, List.find?_cons_of_neg _ (by simpa using h)]
    simp [h, alistFind]

theorem alistUpdate_cons {α : Type} (q : String × α) (rest : List (String × α))
    (k : String) (v : α) :
    alistUpdate (q :: rest) k v =
      (if q.1 = k then (k, v) else q) :: alistUpdate rest k v := by
  by_cases h : q.1 = k <;> simp [alistUpdate, h]

theorem alistFind_append {α : Type} (l1 l2 : List (String × α)) (k : String) :
    alistFind (l1 ++ l2) k =
      match alistFind l1 k with
      | some v => some v
      | none => alistFind l2 k := by
  induction l1 with
  | nil => simp [alistFind_nil]
  | cons p rest ih =>
      rw [List.cons_append, alistFind_cons, alistFind_cons]
      by_cases h : p.1 = k
      · simp [h]
      · simp [h, ih]

theorem alistUpdate_keys {α : Type} (l : List (String × α)) (k : String) (v : α) :
    (alistUpdate l k v).map Prod.fst = l.map Prod.fst := by
  induction l with
  | nil => rfl
  | cons p rest ih =>
      by_cases h : p.1 = k
      · simp [alistUpdate, h] at ih ⊢
        exact ih
      · simp [alistUpdate, h] at ih ⊢
        exact ih

theorem alistFind_update_self {α : Type} (l : List (String × α)) (k : String) (v p : α)
    (h : alistFind l k = some p) : alistFind (alistUpdate l k v) k = some v := by
  induction l with
  | nil => simp [alistFind_nil] at h
  | cons q rest ih =>
      rw [alistFind_cons] at h
      rw [alistUpdate_cons, alistFind_cons]
      by_cases hq : q.1 = k
      · simp [hq]
      · simp only [if_neg hq] at h ⊢
        exact ih h

theorem alistFind_update_ne {α : Type} (l : List (String × α)) (k k2 : String) (v : α)
    (h : k ≠ k2) : alistFind (alistUpdate l k2 v) k = alistFind l k := by
  induction l with
  | nil => rfl
  | cons q rest ih =>
      rw [alistUpdate_cons, alistFind_cons, alistFind_cons]
      by_cases hq : q.1 = k2
      · have hqk : q.1 ≠ k := by
          rw [hq]
          exact fun hh => h hh.symm
        simp only [if_pos hq]
        have hk2k : ¬(k2 = k) := fun hh => h hh.symm
        simp only [hk2k, if_false, if_neg hqk]
        exact ih
      · simp only [if_neg hq]
        by_cases hqk : q.1 = k
        · simp only [if_pos hqk]
        · simp only [if_neg hqk]
          exact ih

theorem alistFind_mem {α : Type} {l : List (String × α)} {k : String} {v : α}
    (h : alistFind l k = some v) : (k, v) ∈ l := by
  induction l with
  | nil => simp [alistFind_nil] at h
  | cons p rest ih =>
      rw [alistFind_cons] at h
      by_cases hp : p.1 = k
      · simp only [if_pos hp, Option.some.injEq] at h
        have : p = (k, v) := Prod.ext hp h
        rw [← this]
        exact List.mem_cons_self p rest
      · simp only [if_neg hp] at h
        exact List.mem_cons_of_mem p (ih h)

theorem alistFind_isSome_iff {α : Type} (l : List (String × α)) (k : String) :
    (alistFind l k).isSome = true ↔ k ∈ l.map Prod.fst := by
  induction l with
  | nil => simp [alistFind_nil]
  | cons p rest ih =>
      rw [alistFind_cons]
      by_cases hp : p.1 = k
      · simp [hp]
      · simp [hp, ih, Ne.symm hp]

theorem alistFind_of_mem_nodup {α : Type} {l : List (String × α)} {k : String} {v : α}
    (hnd : (l.map Prod.fst).Nodup) (h : (k, v) ∈ l) : alistFind l k = some v := by
  induction l with
  | nil => simp at h
  | cons p rest ih =>
      rw [alistFind_cons]
      rw [List.map_cons, List.nodup_cons] at hnd
      rcases List.mem_cons.mp h with he | hm
      · rw [← he]
        simp
      · have hk : k ∈ rest.map Prod.fst := List.mem_map.mpr ⟨(k, v), hm, rfl⟩
        have hp : p.1 ≠ k := fun heq => hnd.1 (heq ▸ hk)
        simp only [if_neg hp]
        exact ih hnd.2 hm

/-! Inference-engine lemmas -/

theorem inferProp_find_self (n : Nat) (props : List (String × FieldProfile))
    (k : String) (v : JsVal) :
    alistFind (inferProp n props k v) k =
      some (match alistFind props k with
            | some p => profStep n p v
            | none => profInit v) := by
  cases hf : alistFind props k with
  | some p =>
      simp only [inferProp, hf]
      exact alistFind_update_self _ _ _ _ hf
  | none =>
      simp only [inferProp, hf]
      rw [alistFind_append, hf]
      rw [alistFind_cons]
      simp

theorem inferProp_find_ne (n : Nat) (props : List (String × FieldProfile))
    (k k2 : String) (v : JsVal) (hne : k ≠ k2) :
    alistFind (inferProp n props k2 v) k = alistFind props k := by
  cases hf : alistFind props k2 with
  | some p =>
      simp only [inferProp, hf]
      exact alistFind_update_ne _ _ _ _ hne
  | none =>
      simp only [inferProp, hf]
      rw [alistFind_append]
      cases hk : alistFind props k with
      | some q => rfl
      | none =>
          rw [alistFind_cons]
          rw [if_neg (fun hh => hne hh.symm)]
          rfl

theorem inferDoc_find_not_mem (n : Nat) (props : List (String × FieldProfile))
    (d : JsDoc) (k : String) (hk : k ∉ d.map Prod.fst) :
    alistFind (inferDoc n props d) k = alistFind props k := by
  induction d generalizing props with
  | nil => rfl
  | cons kv rest ih =>
      rcases kv with ⟨k0, v0⟩
      simp only [List.map_cons, List.mem_cons, not_or] at hk
      rw [inferDoc]
      rw [ih _ hk.2]
      exact inferProp_find_ne n props k k0 v0 hk.1

theorem inferDoc_find (n : Nat) (props : List (String × FieldProfile))
    (d : JsDoc) (k : String) (hd : (d.map Prod.fst).Nodup) :
    alistFind (inferDoc n props d) k =
      match alistFind d k, alistFind props k with
      | none, r => r
      | some v, some p => some (profStep n p v)
      | some v, none => some (profInit v) := by
  induction d generalizing props with
  | nil =>
      rw [alistFind_nil]
      rfl
  | cons kv rest ih =>
      rcases kv with ⟨k0, v0⟩
      rw [List.map_cons, List.nodup_cons] at hd
      rw [inferDoc, alistFind_cons]
      by_cases hk : k0 = k
      · have hnotin : k ∉ rest.map Prod.fst := hk ▸ hd.1
        rw [inferDoc_find_not_mem n _ rest k hnotin]
        simp only [if_pos hk]
        subst hk
        rw [inferProp_find_self n props k0 v0]
        cases alistFind props k0 <;> rfl
      · simp only [if_neg hk]
        rw [ih _ hd.2]
        rw [inferProp_find_ne n props k k0 v0 (fun hh => hk hh.symm)]

theorem inferScan_total (n t : Nat) (props : List (String × FieldProfile))
    (docs : List JsDoc) : (inferScan n t props docs).1 = t + docs.length := by
  induction docs generalizing t props with
  | nil => simp [inferScan]
  | cons d rest ih =>
      rw [inferScan, ih]
      simp
      omega

theorem inferScan_append (n t : Nat) (props : List (String × FieldProfile))
    (a b : List JsDoc) :
    inferScan n t props (a ++ b) =
      inferScan n (inferScan n t props a).1 (inferScan n t props a).2 b := by
  induction a generalizing t props with
  | nil => rfl
  | cons d rest ih =>
      rw [List.cons_append, inferScan, inferScan, ih]

theorem inferProp_inv (n : Nat) (P : FieldProfile → Prop)
    (hstep : ∀ p v, P p → P (profStep n p v)) (hinit : ∀ v, P (profInit v))
    (props : List (String × FieldProfile)) (k0 : String) (v0 : JsVal)
    (hall : ∀ k p, alistFind props k = some p → P p) :
    ∀ k p, alistFind (inferProp n props k0 v0) k = some p → P p := by
  intro k p hfind
  by_cases hk : k = k0
  · subst hk
    rw [inferProp_find_self] at hfind
    cases hprev : alistFind props k with
    | some q =>
        rw [hprev] at hfind
        simp at hfind
        rw [← hfind]
        exact hstep q v0 (hall k q hprev)
    | none =>
        rw [hprev] at hfind
        simp at hfind
        rw [← hfind]
        exact hinit v0
  · rw [inferProp_find_ne n props k k0 v0 hk] at hfind
    exact hall k p hfind

theorem inferDoc_inv (n : Nat) (P : FieldProfile → Prop)
    (hstep : ∀ p v, P p → P (profStep n p v)) (hinit : ∀ v, P (profInit v))
    (props : List (String × FieldProfile)) (d : JsDoc)
    (hall : ∀ k p, alistFind props k = some p → P p) :
    ∀ k p, alistFind (inferDoc n props d) k = some p → P p := by
  induction d generalizing props with
  | nil => exact hall
  | cons kv rest ih =>
      rcases kv with ⟨k0, v0⟩
      rw [inferDoc]
      exact ih _ (inferProp_inv n P hstep hinit props k0 v0 hall)

theorem inferScan_inv (n : Nat) (P : FieldProfile → Prop)
    (hstep : ∀ p v, P p → P (profStep n p v)) (hinit : ∀ v, P (profInit v))
    (t : Nat) (props : List (String × FieldProfile)) (docs : List JsDoc)
    (hall : ∀ k p, alistFind props k = some p → P p) :
    ∀ k p, alistFind (inferScan n t props docs).2 k = some p → P p := by
  induction docs generalizing t props with
  | nil => exact hall
  | cons d rest ih =>
      rw [inferScan]
      exact ih _ _ (inferDoc_inv n P hstep hinit props d hall)

theorem inferScan_docs_le (n : Nat) (t : Nat)
    (props : List (String × FieldProfile)) (docs : List JsDoc)
    (hd : ∀ d ∈ docs, (d.map Prod.fst).Nodup)
    (hall : ∀ k p, alistFind props k = some p → p.docs ≤ t) :
    ∀ k p, alistFind (inferScan n t props docs).2 k = some p →
      p.docs ≤ (inferScan n t props docs).1 := by
  induction docs generalizing t props with
  | nil => exact hall
  | cons d rest ih =>
      rw [inferScan]
      apply ih (t + 1) _ (fun d2 hd2 => hd d2 (List.mem_cons_of_mem d hd2))
      intro k p hfind
      rw [inferDoc_find n props d k (hd d (List.mem_cons_self d rest))] at hfind
      cases hdk : alistFind d k with
      | some v =>
          rw [hdk] at hfind
          cases hpk : alistFind props k with
          | some q =>
              rw [hpk] at hfind
              simp at hfind
              rw [← hfind]
              have := hall k q hpk
              simp [profStep]
              omega
          | none =>
              rw [hpk] at hfind
              simp at hfind
              rw [← hfind]
              simp [profInit]
      | none =>
          rw [hdk] at hfind
          have := hall k p hfind
          omega

theorem inferScan_type (n t : Nat) (props : List (String × FieldProfile))
    (docs : List JsDoc) (k : String)
    (hd : ∀ d ∈ docs, (d.map Prod.fst).Nodup) :
    (alistFind (inferScan n t props docs).2 k).map FieldProfile.type =
      match lastValue k docs with
      | some v => some (typeOf v)
      | none => (alistFind props k).map FieldProfile.type := by
  induction docs generalizing t props with
  | nil => rfl
  | cons d rest ih =>
      rw [inferScan, lastValue]
      rw [ih (t + 1) _ (fun d2 hd2 => hd d2 (List.mem_cons_of_mem d hd2))]
      cases hlast : lastValue k rest with
      | some v => rfl
      | none =>
          simp only
          rw [inferDoc_find n props d k (hd d (List.mem_cons_self d rest))]
          cases hdk : alistFind d k with
          | some v =>
              cases hpk : alistFind props k <;> rfl
          | none => rfl

theorem inferProp_samples_freeze (n : Nat) (props : List (String × FieldProfile))
    (k k0 : String) (v0 : JsVal) (p : FieldProfile)
    (h : alistFind props k = some p) (hfull : p.samples.length = n) :
    ∃ q, alistFind (inferProp n props k0 v0) k = some q ∧ q.samples = p.samples := by
  by_cases hk : k = k0
  · subst hk
    rw [inferProp_find_self, h]
    refine ⟨profStep n p v0, rfl, ?_⟩
    simp [profStep, hfull]
  · rw [inferProp_find_ne n props k k0 v0 hk, h]
    exact ⟨p, rfl, rfl⟩

theorem inferDoc_samples_freeze (n : Nat) (props : List (String × FieldProfile))
    (d : JsDoc) (k : String) (p : FieldProfile)
    (h : alistFind props k = some p) (hfull : p.samples.length = n) :
    ∃ q, alistFind (inferDoc n props d) k = some q ∧ q.samples = p.samples := by
  induction d generalizing props p with
  | nil => exact ⟨p, h, rfl⟩
  | cons kv rest ih =>
      rcases kv with ⟨k0, v0⟩
      rw [inferDoc]
      obtain ⟨q, hq, hqs⟩ := inferProp_samples_freeze n props k k0 v0 p h hfull
      obtain ⟨r, hr, hrs⟩ := ih _ q hq (by rw [hqs]; exact hfull)
      exact ⟨r, hr, by rw [hrs, hqs]⟩

theorem inferScan_samples_freeze (n : Nat) (t : Nat)
    (props : List (String × FieldProfile)) (docs : List JsDoc)
    (k : String) (p : FieldProfile)
    (h : alistFind props k = some p) (hfull : p.samples.length = n) :
    ∃ q, alistFind (inferScan n t props docs).2 k = some q ∧
      q.samples = p.samples := by
  induction docs generalizing t props p with
  | nil => exact ⟨p, h, rfl⟩
  | cons d rest ih =>
      rw [inferScan]
      obtain ⟨q, hq, hqs⟩ := inferDoc_samples_freeze n props d k p h hfull
      obtain ⟨r, hr, hrs⟩ := ih _ _ q hq (by rw [hqs]; exact hfull)
      exact ⟨r, hr, by rw [hrs, hqs]⟩

/-! Detector lemmas -/

theorem dkStep_suggested (excl : List String) (prob : Nat) (s : DKState)
    (kv : String × FieldProfile) :
    (dkStep excl prob s kv).suggested =
      if candidateCond prob kv.2 then s.suggested ++ [kv.1] else s.suggested := by
  rw [dkStep]
  split
  · split
    · simp_all
    · split <;> simp_all
  · simp_all

theorem dkStep_others (excl : List String) (prob : Nat) (s : DKState)
    (kv : String × FieldProfile) :
    (dkStep excl prob s kv).others =
      if candidateCond prob kv.2 then s.others else s.others ++ [kv.1] := by
  rw [dkStep]
  split
  · split
    · simp_all
    · split <;> simp_all
  · simp_all

theorem dkLoop_suggested (excl : List String) (prob : Nat)
    (l : List (String × FieldProfile)) (s : DKState) :
    (dkLoop excl prob l s).suggested =
      s.suggested ++ (l.filter (fun kv => candidateCond prob kv.2)).map Prod.fst := by
  induction l generalizing s with
  | nil => simp [dkLoop]
  | cons kv rest ih =>
      rw [dkLoop, ih, dkStep_suggested]
      cases hcond : candidateCond prob kv.2 with
      | true => simp [List.filter_cons, hcond]
      | false => simp [List.filter_cons, hcond]

theorem dkLoop_others (excl : List String) (prob : Nat)
    (l : List (String × FieldProfile)) (s : DKState) :
    (dkLoop excl prob l s).others =
      s.others ++ (l.filter (fun kv => !candidateCond prob kv.2)).map Prod.fst := by
  induction l generalizing s with
  | nil => simp [dkLoop]
  | cons kv rest ih =>
      rw [dkLoop, ih, dkStep_others]
      cases hcond : candidateCond prob kv.2 with
      | true => simp [List.filter_cons, hcond]
      | false => simp [List.filter_cons, hcond]

theorem dkStep_dkKey (excl : List String) (prob : Nat) (s : DKState)
    (kv : String × FieldProfile) :
    (dkStep excl prob s kv).dkKey = s.dkKey ∨
      (candidateCond prob kv.2 = true ∧ kv.1 ∉ excl ∧
        (dkStep excl prob s kv).dkKey = kv.1) := by
  rw [dkStep]
  split
  · split
    · left
      rfl
    · split
      · right
        refine ⟨by assumption, by assumption, rfl⟩
      · left
        rfl
  · left
    rfl

theorem dkLoop_dkKey (excl : List String) (prob : Nat)
    (l : List (String × FieldProfile)) (s : DKState) :
    (dkLoop excl prob l s).dkKey = s.dkKey ∨
      ∃ kp, kp ∈ l ∧ candidateCond prob kp.2 = true ∧ kp.1 ∉ excl ∧
        (dkLoop excl prob l s).dkKey = kp.1 := by
  induction l generalizing s with
  | nil =>
      left
      rfl
  | cons kv rest ih =>
      rw [dkLoop]
      rcases ih (dkStep excl prob s kv) with h | ⟨kp, hmem, hcond, hexcl, hkey⟩
      · rw [h]
        rcases dkStep_dkKey excl prob s kv with h2 | ⟨hc, he, hk⟩
        · left
          exact h2
        · right
          exact ⟨kv, List.mem_cons_self kv rest, hc, he, hk⟩
      · right
        exact ⟨kp, List.mem_cons_of_mem kv hmem, hcond, hexcl, hkey⟩

theorem dkStep_not_cand (excl : List String) (prob : Nat) (s : DKState)
    (kv : String × FieldProfile) (h : candidateCond prob kv.2 = false) :
    dkStep excl prob s kv = { s with others := s.others ++ [kv.1] } := by
  rw [dkStep]
  simp [h]

theorem dkStep_excluded (excl : List String) (prob : Nat) (s : DKState)
    (kv : String × FieldProfile) (h : candidateCond prob kv.2 = true)
    (he : kv.1 ∈ excl) :
    dkStep excl prob s kv = { s with suggested := s.suggested ++ [kv.1] } := by
  rw [dkStep]
  simp [h, he]

theorem dkStep_update (excl : List String) (prob : Nat) (s : DKState)
    (kv : String × FieldProfile) (h : candidateCond prob kv.2 = true)
    (he : kv.1 ∉ excl)
    (hcmp : s.dkProb ≤ kv.2.pctDocs ∧ ltMinCount kv.2.samples.length s.minCount) :
    dkStep excl prob s kv =
      { s with suggested := s.suggested ++ [kv.1],
               minCount := some kv.2.samples.length,
               dkProb := kv.2.pctDocs, dkKey := kv.1 } := by
  rw [dkStep]
  simp [h, he, hcmp]

theorem dkStep_noupdate (excl : List String) (prob : Nat) (s : DKState)
    (kv : String × FieldProfile) (h : candidateCond prob kv.2 = true)
    (he : kv.1 ∉ excl)
    (hcmp : ¬(s.dkProb ≤ kv.2.pctDocs ∧ ltMinCount kv.2.samples.length s.minCount)) :
    dkStep excl prob s kv = { s with suggested := s.suggested ++ [kv.1] } := by
  rw [dkStep]
  simp [h, he, hcmp]

theorem dkLoop_argmin_run (excl : List String) (prob c : Nat)
    (l : List (String × FieldProfile)) :
    ∀ (s : DKState) (m : Nat),
    s.minCount = some m → s.dkProb = c →
    (∀ kp ∈ l, candidateCond prob kp.2 = true → kp.1 ∉ excl → kp.2.pctDocs = c) →
    ∃ m2, (dkLoop excl prob l s).minCount = some m2 ∧
      (dkLoop excl prob l s).dkProb = c ∧ m2 ≤ m ∧
      (∀ kp ∈ l, candidateCond prob kp.2 = true → kp.1 ∉ excl →
        m2 ≤ kp.2.samples.length) ∧
      (((dkLoop excl prob l s).dkKey = s.dkKey ∧ m2 = m) ∨
        ∃ kp ∈ l, candidateCond prob kp.2 = true ∧ kp.1 ∉ excl ∧
          (dkLoop excl prob l s).dkKey = kp.1 ∧ m2 = kp.2.samples.length) := by
  induction l with
  | nil =>
      intro s m hm hp _
      refine ⟨m, hm, hp, le_refl m, ?_, Or.inl ⟨rfl, rfl⟩⟩
      intro kp hkp
      simp at hkp
  | cons kv rest ih =>
      intro s m hm hp hall
      rw [dkLoop]
      cases hcond : candidateCond prob kv.2 with
      | false =>
          rw [dkStep_not_cand excl prob s kv hcond]
          obtain ⟨m2, h1, h2, h3, h4, h5⟩ :=
            ih { s with others := s.others ++ [kv.1] } m hm hp
              (fun kp hkp => hall kp (List.mem_cons_of_mem kv hkp))
          refine ⟨m2, h1, h2, h3, ?_, ?_⟩
          · intro kp hkp hc he
            rcases List.mem_cons.mp hkp with heq | hmem
            · rw [heq] at hc
              rw [hc] at hcond
              cases hcond
            · exact h4 kp hmem hc he
          · rcases h5 with ⟨hk, hmm⟩ | ⟨kp, hkp, hc, he, hk, hmm⟩
            · exact Or.inl ⟨hk, hmm⟩
            · exact Or.inr ⟨kp, List.mem_cons_of_mem kv hkp, hc, he, hk, hmm⟩
      | true =>
          by_cases hexcl : kv.1 ∈ excl
          · rw [dkStep_excluded excl prob s kv hcond hexcl]
            obtain ⟨m2, h1, h2, h3, h4, h5⟩ :=
              ih { s with suggested := s.suggested ++ [kv.1] } m hm hp
                (fun kp hkp => hall kp (List.mem_cons_of_mem kv hkp))
            refine ⟨m2, h1, h2, h3, ?_, ?_⟩
            · intro kp hkp hc he
              rcases List.mem_cons.mp hkp with heq | hmem
              · rw [heq] at he
                exact absurd hexcl he
              · exact h4 kp hmem hc he
            · rcases h5 with ⟨hk, hmm⟩ | ⟨kp, hkp, hc, he, hk, hmm⟩
              · exact Or.inl ⟨hk, hmm⟩
              · exact Or.inr ⟨kp, List.mem_cons_of_mem kv hkp, hc, he, hk, hmm⟩
          · have hpct : kv.2.pctDocs = c :=
              hall kv (List.mem_cons_self kv rest) hcond hexcl
            by_cases hlen : kv.2.samples.length < m
            · rw [dkStep_update excl prob s kv hcond hexcl
                (by
                  constructor
                  · rw [hp, hpct]
                  · rw [hm, ltMinCount]
                    simpa using hlen)]
              obtain ⟨m2, h1, h2, h3, h4, h5⟩ :=
                ih { s with suggested := s.suggested ++ [kv.1],
                            minCount := some kv.2.samples.length,
                            dkProb := kv.2.pctDocs, dkKey := kv.1 }
                  kv.2.samples.length rfl hpct
                  (fun kp hkp => hall kp (List.mem_cons_of_mem kv hkp))
              refine ⟨m2, h1, h2, le_trans h3 (le_of_lt hlen), ?_, ?_⟩
              · intro kp hkp hc he
                rcases List.mem_cons.mp hkp with heq | hmem
                · rw [heq]
                  exact h3
                · exact h4 kp hmem hc he
              · rcases h5 with ⟨hk, hmm⟩ | ⟨kp, hkp, hc, he, hk, hmm⟩
                · exact Or.inr ⟨kv, List.mem_cons_self kv rest, hcond, hexcl, hk, hmm⟩
                · exact Or.inr ⟨kp, List.mem_cons_of_mem kv hkp, hc, he, hk, hmm⟩
            · rw [dkStep_noupdate excl prob s kv hcond hexcl
                (by
                  intro hand
                  rw [hm, ltMinCount] at hand
                  exact hlen (by simpa using hand.2))]
              obtain ⟨m2, h1, h2, h3, h4, h5⟩ :=
                ih { s with suggested := s.suggested ++ [kv.1] } m hm hp
                  (fun kp hkp => hall kp (List.mem_cons_of_mem kv hkp))
              refine ⟨m2, h1, h2, h3, ?_, ?_⟩
              · intro kp hkp hc he
                rcases List.mem_cons.mp hkp with heq | hmem
                · rw [heq]
                  exact le_trans h3 (le_of_not_lt hlen)
                · exact h4 kp hmem hc he
              · rcases h5 with ⟨hk, hmm⟩ | ⟨kp, hkp, hc, he, hk, hmm⟩
                · exact Or.inl ⟨hk, hmm⟩
                · exact Or.inr ⟨kp, List.mem_cons_of_mem kv hkp, hc, he, hk, hmm⟩

theorem dkLoop_argmin_init (excl : List String) (prob c : Nat)
    (l : List (String × FieldProfile)) :
    ∀ (s : DKState),
    s.minCount = none → s.dkProb = 0 →
    (∀ kp ∈ l, candidateCond prob kp.2 = true → kp.1 ∉ excl → kp.2.pctDocs = c) →
    (∃ kp ∈ l, candidateCond prob kp.2 = true ∧ kp.1 ∉ excl) →
    ∃ kp ∈ l, candidateCond prob kp.2 = true ∧ kp.1 ∉ excl ∧
      (dkLoop excl prob l s).dkKey = kp.1 ∧
      (∀ kq ∈ l, candidateCond prob kq.2 = true → kq.1 ∉ excl →
        kp.2.samples.length ≤ kq.2.samples.length) := by
  induction l with
  | nil =>
      intro s _ _ _ hex
      simp at hex
  | cons kv rest ih =>
      intro s hm hp hall hex
      rw [dkLoop]
      cases hcond : candidateCond prob kv.2 with
      | false =>
          rw [dkStep_not_cand excl prob s kv hcond]
          have hex2 : ∃ kp ∈ rest, candidateCond prob kp.2 = true ∧ kp.1 ∉ excl := by
            obtain ⟨kp, hkp, hc, he⟩ := hex
            rcases List.mem_cons.mp hkp with heq | hmem
            · rw [heq] at hc
              rw [hc] at hcond
              cases hcond
            · exact ⟨kp, hmem, hc, he⟩
          obtain ⟨kp, hkp, hc, he, hk, hmin⟩ :=
            ih { s with others := s.others ++ [kv.1] } hm hp
              (fun kp hkp => hall kp (List.mem_cons_of_mem kv hkp)) hex2
          refine ⟨kp, List.mem_cons_of_mem kv hkp, hc, he, hk, ?_⟩
          intro kq hkq hcq heq
          rcases List.mem_cons.mp hkq with heq2 | hmem
          · rw [heq2] at hcq
            rw [hcq] at hcond
            cases hcond
          · exact hmin kq hmem hcq heq
      | true =>
          by_cases hexcl : kv.1 ∈ excl
          · rw [dkStep_excluded excl prob s kv hcond hexcl]
            have hex2 : ∃ kp ∈ rest, candidateCond prob kp.2 = true ∧ kp.1 ∉ excl := by
              obtain ⟨kp, hkp, hc, he⟩ := hex
              rcases List.mem_cons.mp hkp with heq | hmem
              · rw [heq] at he
                exact absurd hexcl he
              · exact ⟨kp, hmem, hc, he⟩
            obtain ⟨kp, hkp, hc, he, hk, hmin⟩ :=
              ih { s with suggested := s.suggested ++ [kv.1] } hm hp
                (fun kp hkp => hall kp (List.mem_cons_of_mem kv hkp)) hex2
            refine ⟨kp, List.mem_cons_of_mem kv hkp, hc, he, hk, ?_⟩
            intro kq hkq hcq heq
            rcases List.mem_cons.mp hkq with heq2 | hmem
            · rw [heq2] at heq
              exact absurd hexcl heq
            · exact hmin kq hmem hcq heq
          · have hpct : kv.2.pctDocs = c :=
              hall kv (List.mem_cons_self kv rest) hcond hexcl
            rw [dkStep_update excl prob s kv hcond hexcl
              (by
                constructor
                · rw [hp]
                  exact Nat.zero_le _
                · rw [hm, ltMinCount])]
            obtain ⟨m2, h1, h2, h3, h4, h5⟩ :=
              dkLoop_argmin_run excl prob c rest
                { s with suggested := s.suggested ++ [kv.1],
                         minCount := some kv.2.samples.length,
                         dkProb := kv.2.pctDocs, dkKey := kv.1 }
                kv.2.samples.length rfl hpct
                (fun kp hkp => hall kp (List.mem_cons_of_mem kv hkp))
            rcases h5 with ⟨hk, hmm⟩ | ⟨kp, hkp, hc, he, hk, hmm⟩
            · refine ⟨kv, List.mem_cons_self kv rest, hcond, hexcl, hk, ?_⟩
              intro kq hkq hcq heq
              rcases List.mem_cons.mp hkq with heq2 | hmem
              · rw [heq2]
              · have := h4 kq hmem hcq heq
                omega
            · refine ⟨kp, List.mem_cons_of_mem kv hkp, hc, he, hk, ?_⟩
              intro kq hkq hcq heq
              rcases List.mem_cons.mp hkq with heq2 | hmem
              · rw [heq2]
                omega
              · have := h4 kq hmem hcq heq
                omega

theorem roundPct_eq_round (c t : Nat) (ht : 0 < t) :
    (roundPct c t : ℤ) = round ((c : ℚ) / (t : ℚ) * 100) := by
  rw [round_eq, roundPct]
  have ht2 : (t : ℚ) ≠ 0 := Nat.cast_ne_zero.mpr (Nat.pos_iff_ne_zero.mp ht)
  have harg : (c : ℚ) / (t : ℚ) * 100 + 1 / 2 =
      (((200 * c + t : ℕ) : ℤ) : ℚ) / ((2 * t : ℕ) : ℚ) := by
    push_cast
    field_simp
    ring
  rw [harg, Rat.floor_intCast_div_natCast]
  rw [Int.ofNat_tdiv]
  push_cast
  rfl

theorem candidateCond_iff (prob : Nat) (p : FieldProfile) :
    candidateCond prob p = true ↔
      prob ≤ p.pctDocs ∧ ∃ v vs, p.samples = v :: vs ∧ jsTypeof v ≠ "object" := by
  cases hs : p.samples with
  | nil => simp [candidateCond, hs]
  | cons v vs =>
      simp only [candidateCond, hs, Bool.and_eq_true, decide_eq_true_eq,
        Bool.not_eq_true', beq_eq_false_iff_ne, ne_eq]
      constructor
      · rintro ⟨h1, h2⟩
        exact ⟨h1, v, vs, rfl, h2⟩
      · rintro ⟨h1, v2, vs2, heq, h2⟩
        cases heq
        exact ⟨h1, h2⟩

theorem mem_filterMapFst (l : List (String × FieldProfile)) (f : String)
    (cond : String × FieldProfile → Bool) :
    f ∈ (l.filter cond).map Prod.fst ↔ ∃ p, (f, p) ∈ l ∧ cond (f, p) = true := by
  constructor
  · intro h
    obtain ⟨kv, hkv, hfst⟩ := List.mem_map.mp h
    rcases kv with ⟨a, b⟩
    obtain ⟨hmem, hcond⟩ := List.mem_filter.mp hkv
    cases hfst
    exact ⟨b, hmem, hcond⟩
  · rintro ⟨p, hmem, hcond⟩
    exact List.mem_map.mpr ⟨(f, p), List.mem_filter.mpr ⟨hmem, hcond⟩, rfl⟩

theorem alist_nodup_unique {l : List (String × FieldProfile)} {k : String}
    {p q : FieldProfile} (hnd : (l.map Prod.fst).Nodup)
    (h1 : (k, p) ∈ l) (h2 : (k, q) ∈ l) : p = q := by
  have e1 := alistFind_of_mem_nodup hnd h1
  have e2 := alistFind_of_mem_nodup hnd h2
  rw [e1] at e2
  injection e2

theorem getDocumentKindDataFromInfer_custom (b : String) (schema : InferSchema)
    (excl : List String) (prob : Nat) :
    getDocumentKindDataFromInfer b (.custom schema excl) prob =
      .ok { bucketName := b,
            documentList := (dkLoop excl prob schema.properties dkInit).suggested,
            documentKind := (dkLoop excl prob schema.properties dkInit).dkKey,
            otherDocKinds := (dkLoop excl prob schema.properties dkInit).others } := rfl

/-! Claim theorems -/

/-- C2: in custom-infer mode a field f is placed in candidateFields iff its
docPercent is at least the probability threshold, its samples list is
non-empty, and the typeof of the first sampled value is not object; consequently
a field present in 500 of 1000 documents (docPercent 50) under threshold 90
lands in otherFields and never in candidateFields. -/
theorem c2_candidate_membership (b : String) (schema : InferSchema)
    (excl : List String) (prob : Nat) (f : String) (p : FieldProfile)
    (r : DocumentKindData)
    (hnd : (schema.properties.map Prod.fst).Nodup)
    (hmem : (f, p) ∈ schema.properties)
    (hr : getDocumentKindDataFromInfer b (.custom schema excl) prob = .ok r) :
    (f ∈ r.documentList ↔
      prob ≤ p.pctDocs ∧
        ∃ v vs, p.samples = v :: vs ∧ jsTypeof v ≠ "object") ∧
    (p.pctDocs = roundPct 500 1000 → prob = 90 →
      f ∈ r.otherDocKinds ∧ f ∉ r.documentList) := by
  rw [getDocumentKindDataFromInfer_custom] at hr
  injection hr with hr
  subst hr
  have hsug : ∀ g, g ∈ (dkLoop excl prob schema.properties dkInit).suggested ↔
      ∃ q, (g, q) ∈ schema.properties ∧ candidateCond prob q = true := by
    intro g
    rw [dkLoop_suggested]
    simp only [dkInit, List.nil_append]
    exact mem_filterMapFst schema.properties g _
  have hoth : ∀ g, g ∈ (dkLoop excl prob schema.properties dkInit).others ↔
      ∃ q, (g, q) ∈ schema.properties ∧ candidateCond prob q = false := by
    intro g
    rw [dkLoop_others]
    simp only [dkInit, List.nil_append]
    rw [mem_filterMapFst schema.properties g _]
    simp only [Bool.not_eq_true']
  constructor
  · rw [hsug f]
    constructor
    · rintro ⟨q, hq, hc⟩
      have := alist_nodup_unique hnd hq hmem
      rw [this] at hc
      exact (candidateCond_iff prob p).mp hc
    · intro hc
      exact ⟨p, hmem, (candidateCond_iff prob p).mpr hc⟩
  · intro hpct hprob
    have hc : candidateCond prob p = false := by
      rw [Bool.eq_false_iff]
      intro hcc
      have := ((candidateCond_iff prob p).mp hcc).1
      rw [hpct, hprob] at this
      norm_num [roundPct] at this
    constructor
    · exact (hoth f).mpr ⟨p, hmem, hc⟩
    · rw [hsug f]
      rintro ⟨q, hq, hcq⟩
      have := alist_nodup_unique hnd hq hmem
      rw [this] at hcq
      rw [hc] at hcq
      cases hcq

/-- C2 witness: a field present in 500 of 1000 documents, threshold 90,
is in otherDocKinds and not in documentList. -/
theorem c2_candidate_membership_witness :
    (("f" ∈ (DocumentKindData.mk "b" [] "" ["f"]).documentList ↔
      90 ≤ exProfile50.pctDocs ∧
        ∃ v vs, exProfile50.samples = v :: vs ∧ jsTypeof v ≠ "object") ∧
    (exProfile50.pctDocs = roundPct 500 1000 → 90 = 90 →
      "f" ∈ (DocumentKindData.mk "b" [] "" ["f"]).otherDocKinds ∧
      "f" ∉ (DocumentKindData.mk "b" [] "" ["f"]).documentList)) :=
  c2_candidate_membership "b" exSchemaC2 [] 90 "f" exProfile50
    (DocumentKindData.mk "b" [] "" ["f"])
    (by decide) (by simp [exSchemaC2]) rfl

/-- C3: in custom-infer mode candidateFields and otherFields are disjoint
and their union is exactly the set of top-level field names of the schema
property map. -/
theorem c3_partition (b : String) (schema : InferSchema)
    (excl : List String) (prob : Nat) (r : DocumentKindData)
    (hnd : (schema.properties.map Prod.fst).Nodup)
    (hr : getDocumentKindDataFromInfer b (.custom schema excl) prob = .ok r) :
    (∀ f, (f ∈ r.documentList ∨ f ∈ r.otherDocKinds) ↔
      f ∈ schema.properties.map Prod.fst) ∧
    (∀ f, ¬(f ∈ r.documentList ∧ f ∈ r.otherDocKinds)) := by
  rw [getDocumentKindDataFromInfer_custom] at hr
  injection hr with hr
  subst hr
  have hsug : ∀ g, g ∈ (dkLoop excl prob schema.properties dkInit).suggested ↔
      ∃ q, (g, q) ∈ schema.properties ∧ candidateCond prob q = true := by
    intro g
    rw [dkLoop_suggested]
    simp only [dkInit, List.nil_append]
    exact mem_filterMapFst schema.properties g _
  have hoth : ∀ g, g ∈ (dkLoop excl prob schema.properties dkInit).others ↔
      ∃ q, (g, q) ∈ schema.properties ∧ candidateCond prob q = false := by
    intro g
    rw [dkLoop_others]
    simp only [dkInit, List.nil_append]
    rw [mem_filterMapFst schema.properties g _]
    simp only [Bool.not_eq_true']
  constructor
  · intro f
    rw [hsug f, hoth f]
    constructor
    · rintro (⟨q, hq, _⟩ | ⟨q, hq, _⟩) <;>
        exact List.mem_map.mpr ⟨(f, q), hq, rfl⟩
    · intro hf
      obtain ⟨kv, hkv, hfst⟩ := List.mem_map.mp hf
      rcases kv with ⟨a, q⟩
      cases hfst
      cases hcq : candidateCond prob q with
      | true => exact Or.inl ⟨q, hkv, hcq⟩
      | false => exact Or.inr ⟨q, hkv, hcq⟩
  · intro f
    rintro ⟨h1, h2⟩
    obtain ⟨q1, hq1, hc1⟩ := (hsug f).mp h1
    obtain ⟨q2, hq2, hc2⟩ := (hoth f).mp h2
    have := alist_nodup_unique hnd hq1 hq2
    rw [this, hc2] at hc1
    cases hc1

/-- C3 witness: on the status/id example schema the partition holds. -/
theorem c3_partition_witness :
    (∀ f, (f ∈ (DocumentKindData.mk "b" ["status", "id"] "status" []).documentList ∨
      f ∈ (DocumentKindData.mk "b" ["status", "id"] "status" []).otherDocKinds) ↔
      f ∈ statusIdSchema.properties.map Prod.fst) ∧
    (∀ f, ¬(f ∈ (DocumentKindData.mk "b" ["status", "id"] "status" []).documentList ∧
      f ∈ (DocumentKindData.mk "b" ["status", "id"] "status" []).otherDocKinds)) :=
  c3_partition "b" statusIdSchema [] 90
    (DocumentKindData.mk "b" ["status", "id"] "status" [])
    (by decide) rfl

/-- C10: in custom-infer mode a field whose first sampled value has JS
typeof object (null, an array, or an embedded object) never enters
candidateFields, always lands in otherFields, and is never the chosen
documentKind (the empty string marking no choice aside). -/
theorem c10_object_first_sample (b : String) (schema : InferSchema)
    (excl : List String) (prob : Nat) (f : String) (p : FieldProfile)
    (v : JsVal) (r : DocumentKindData)
    (hnd : (schema.properties.map Prod.fst).Nodup)
    (hmem : (f, p) ∈ schema.properties)
    (hv : p.samples.head? = some v) (hobj : jsTypeof v = "object")
    (hr : getDocumentKindDataFromInfer b (.custom schema excl) prob = .ok r) :
    f ∈ r.otherDocKinds ∧ f ∉ r.documentList ∧ (f ≠ "" → r.documentKind ≠ f) := by
  have hc : candidateCond prob p = false := by
    rw [Bool.eq_false_iff]
    intro hcc
    obtain ⟨_, v2, vs2, hs2, hty⟩ := (candidateCond_iff prob p).mp hcc
    rw [hs2] at hv
    simp at hv
    rw [hv] at hty
    exact hty hobj
  rw [getDocumentKindDataFromInfer_custom] at hr
  injection hr with hr
  subst hr
  refine ⟨?_, ?_, ?_⟩
  · rw [dkLoop_others]
    simp only [dkInit, List.nil_append]
    rw [mem_filterMapFst schema.properties f _]
    exact ⟨p, hmem, by rw [hc]; rfl⟩
  · rw [dkLoop_suggested]
    simp only [dkInit, List.nil_append]
    rw [mem_filterMapFst schema.properties f _]
    rintro ⟨q, hq, hcq⟩
    have := alist_nodup_unique hnd hq hmem
    rw [this, hc] at hcq
    cases hcq
  · intro hne heq
    have heq2 : (dkLoop excl prob schema.properties dkInit).dkKey = f := heq
    rcases dkLoop_dkKey excl prob schema.properties dkInit with hk | ⟨kp, hkp, hcp, _, hk⟩
    · rw [heq2] at hk
      exact hne hk
    · rw [heq2] at hk
      rcases kp with ⟨a, q⟩
      cases hk
      have := alist_nodup_unique hnd hkp hmem
      rw [this, hc] at hcp
      cases hcp

/-- C10 witness: a field whose only sampled value is null is in
otherDocKinds, not in documentList, and is not the chosen kind. -/
theorem c10_object_first_sample_witness :
    "n" ∈ (DocumentKindData.mk "b" [] "" ["n"]).otherDocKinds ∧
    "n" ∉ (DocumentKindData.mk "b" [] "" ["n"]).documentList ∧
    ("n" ≠ "" → (DocumentKindData.mk "b" [] "" ["n"]).documentKind ≠ "n") :=
  c10_object_first_sample "b" nullSchema [] 90 "n" nullProfile JsVal.null
    (DocumentKindData.mk "b" [] "" ["n"])
    (by decide) (by simp [nullSchema]) (by simp [nullProfile]) rfl rfl

theorem alistFind_map_val {α β : Type} (l : List (String × α)) (g : α → β) (k : String) :
    alistFind (l.map (fun p => (p.1, g p.2))) k = (alistFind l k).map g := by
  induction l with
  | nil => rfl
  | cons p rest ih =>
      rw [List.map_cons, alistFind_cons, alistFind_cons]
      by_cases h : p.1 = k
      · simp [h]
      · simp [h, ih]

theorem generateCustomInferSchema_eq (b : String) (docs : List JsDoc)
    (ssp : Option Nat) :
    generateCustomInferSchema b docs ssp =
      { docs := (inferScan (effSampleSize ssp) 0 [] docs).1,
        properties := (inferScan (effSampleSize ssp) 0 [] docs).2.map
          (fun p => (p.1,
            finalizeProf (inferScan (effSampleSize ssp) 0 [] docs).1 p.2)) } :=
  rfl

theorem effSampleSize_pos (o : Option Nat) : 1 ≤ effSampleSize o := by
  rcases o with _ | n
  · decide
  · cases n
    · decide
    · rw [effSampleSize]
      omega

/-- C4 counterexample: two structurally equal but referentially distinct
arrays both end up in the samples list, because indexOf compares references,
not structure. -/
theorem c4_counterexample :
    (generateCustomInferSchema "b" twinArrayDocs (some 20)).properties =
      [("a", { docs := 2, pctDocs := 100,
               samples := [JsVal.arr 0 [JsVal.num 1], JsVal.arr 1 [JsVal.num 1]],
               type := "array" })] ∧
    structEq (JsVal.arr 0 [JsVal.num 1]) (JsVal.arr 1 [JsVal.num 1]) = true ∧
    JsVal.arr 0 [JsVal.num 1] ≠ JsVal.arr 1 [JsVal.num 1] := by
  refine ⟨rfl, rfl, ?_⟩
  intro h
  injection h with h1 _
  cases h1

/-- C4 (amended): the samples list of every field is deduplicated by JS
strict equality (reference equality for arrays and objects, value equality
for primitives): no two entries of a samples list are strictly equal. -/
theorem c4_strict_dedup (b : String) (docs : List JsDoc) (ssp : Option Nat)
    (f : String) (p : FieldProfile)
    (hfind : alistFind (generateCustomInferSchema b docs ssp).properties f = some p) :
    List.Pairwise (fun a b2 => strictEq a b2 = false) p.samples := by
  rw [generateCustomInferSchema_eq] at hfind
  simp only at hfind
  rw [alistFind_map_val] at hfind
  cases hq : alistFind (inferScan (effSampleSize ssp) 0 [] docs).2 f with
  | none =>
      rw [hq] at hfind
      cases hfind
  | some q =>
      rw [hq] at hfind
      simp at hfind
      have hqp : p.samples = q.samples := by rw [← hfind]; rfl
      rw [hqp]
      refine inferScan_inv (effSampleSize ssp)
        (fun pr => List.Pairwise (fun a b2 => strictEq a b2 = false) pr.samples)
        ?_ ?_ 0 [] docs ?_ f q hq
      · intro pr v hP
        rw [profStep]
        by_cases hcond : notSampled pr.samples v ∧ pr.samples.length < effSampleSize ssp
        · simp only [if_pos hcond]
          rw [List.pairwise_append]
          refine ⟨hP, List.pairwise_singleton _ _, ?_⟩
          intro a ha b2 hb2
          rw [List.mem_singleton] at hb2
          subst hb2
          have := hcond.1
          rw [notSampled, List.all_eq_true] at this
          have := this a ha
          rwa [Bool.not_eq_true'] at this
        · simp only [if_neg hcond]
          exact hP
      · intro v
        exact List.pairwise_singleton _ _
      · intro k2 p2 h2
        rw [alistFind_nil] at h2
        cases h2

/-- C4 amended witness: the two distinct array references are pairwise
non-strict-equal in the resulting samples list. -/
theorem c4_strict_dedup_witness :
    List.Pairwise (fun a b2 => strictEq a b2 = false)
      [JsVal.arr 0 [JsVal.num 1], JsVal.arr 1 [JsVal.num 1]] :=
  c4_strict_dedup "b" twinArrayDocs (some 20) "a"
    { docs := 2, pctDocs := 100,
      samples := [JsVal.arr 0 [JsVal.num 1], JsVal.arr 1 [JsVal.num 1]],
      type := "array" } rfl

/-- C5: for a non-empty document sequence, the docCount of every field is at
most totalDocs and its docPercent is exactly the rounding to the nearest
integer of docCount / totalDocs * 100. -/
theorem c5_doc_percent (b : String) (docs : List JsDoc) (ssp : Option Nat)
    (f : String) (p : FieldProfile)
    (hne : docs ≠ [])
    (hd : ∀ d ∈ docs, (d.map Prod.fst).Nodup)
    (hfind : alistFind (generateCustomInferSchema b docs ssp).properties f = some p) :
    p.docs ≤ (generateCustomInferSchema b docs ssp).docs ∧
    (p.pctDocs : ℤ) =
      round ((p.docs : ℚ) / ((generateCustomInferSchema b docs ssp).docs : ℚ) * 100) := by
  rw [generateCustomInferSchema_eq] at hfind ⊢
  simp only at hfind ⊢
  rw [alistFind_map_val] at hfind
  cases hq : alistFind (inferScan (effSampleSize ssp) 0 [] docs).2 f with
  | none =>
      rw [hq] at hfind
      cases hfind
  | some q =>
      rw [hq] at hfind
      simp at hfind
      have hdocs : p.docs = q.docs := by rw [← hfind]; rfl
      have hpct : p.pctDocs = roundPct q.docs (inferScan (effSampleSize ssp) 0 [] docs).1 := by
        rw [← hfind]
        rfl
      have htot : (inferScan (effSampleSize ssp) 0 [] docs).1 = docs.length := by
        rw [inferScan_total]
        omega
      have htpos : 0 < docs.length := List.length_pos.mpr hne
      constructor
      · rw [hdocs]
        exact inferScan_docs_le (effSampleSize ssp) 0 [] docs hd
          (fun k2 p2 h2 => by rw [alistFind_nil] at h2; cases h2) f q hq
      · rw [hdocs, hpct, htot]
        exact roundPct_eq_round q.docs docs.length htpos

/-- C5 witness: on three concrete documents the field a has docCount 2 of
3 and docPercent 67 = round(200/3). -/
theorem c5_doc_percent_witness :
    (2 : Nat) ≤ 3 ∧ ((67 : Nat) : ℤ) = round (((2 : Nat) : ℚ) / ((3 : Nat) : ℚ) * 100) :=
  c5_doc_percent "b" [[("a", .num 1)], [("a", .num 2)], [("b", .num 3)]] (some 20)
    "a" { docs := 2, pctDocs := 67, samples := [.num 1, .num 2], type := "number" }
    (by simp) (by decide) rfl

/-- C6: the samples list of every field is capped at the effective sampleSize,
and once full it never changes again however many further documents are
scanned. -/
theorem c6_sample_cap (b : String) (docs1 docs2 : List JsDoc) (ssp : Option Nat)
    (f : String) (p : FieldProfile)
    (hfind : alistFind (generateCustomInferSchema b docs1 ssp).properties f = some p) :
    p.samples.length ≤ effSampleSize ssp ∧
    (p.samples.length = effSampleSize ssp →
      ∃ q, alistFind (generateCustomInferSchema b (docs1 ++ docs2) ssp).properties f = some q ∧
        q.samples = p.samples) := by
  rw [generateCustomInferSchema_eq] at hfind
  simp only at hfind
  rw [alistFind_map_val] at hfind
  cases hq : alistFind (inferScan (effSampleSize ssp) 0 [] docs1).2 f with
  | none =>
      rw [hq] at hfind
      cases hfind
  | some q =>
      rw [hq] at hfind
      simp at hfind
      have hqp : p.samples = q.samples := by rw [← hfind]; rfl
      constructor
      · rw [hqp]
        refine inferScan_inv (effSampleSize ssp)
          (fun pr => pr.samples.length ≤ effSampleSize ssp)
          ?_ ?_ 0 [] docs1 ?_ f q hq
        · intro pr v hP
          rw [profStep]
          by_cases hcond : notSampled pr.samples v ∧ pr.samples.length < effSampleSize ssp
          · simp only [if_pos hcond]
            rw [List.length_append]
            simp
            omega
          · simp only [if_neg hcond]
            exact hP
        · intro v
          rw [profInit]
          simp
          exact effSampleSize_pos ssp
        · intro k2 p2 h2
          rw [alistFind_nil] at h2
          cases h2
      · intro hfull
        rw [hqp] at hfull
        obtain ⟨q2, hq2, hq2s⟩ :=
          inferScan_samples_freeze (effSampleSize ssp)
            (inferScan (effSampleSize ssp) 0 [] docs1).1
            (inferScan (effSampleSize ssp) 0 [] docs1).2 docs2 f q hq hfull
        refine ⟨finalizeProf (inferScan (effSampleSize ssp) 0 [] (docs1 ++ docs2)).1 q2, ?_, ?_⟩
        · rw [generateCustomInferSchema_eq]
          simp only
          rw [alistFind_map_val]
          rw [inferScan_append]
          rw [hq2]
          rfl
        · rw [finalizeProf]
          simp only
          rw [hq2s, hqp]

/-- C6 witness: with sampleSize 1 the single sample survives a second
document with a novel value. -/
theorem c6_sample_cap_witness :
    ([JsVal.num 1] : List JsVal).length ≤ effSampleSize (some 1) ∧
    (∃ q, alistFind (generateCustomInferSchema "b"
        ([[("a", JsVal.num 1)]] ++ [[("a", JsVal.num 2)]]) (some 1)).properties "a" = some q ∧
      q.samples = [JsVal.num 1]) :=
  ⟨(c6_sample_cap "b" [[("a", JsVal.num 1)]] [[("a", JsVal.num 2)]] (some 1) "a"
      { docs := 1, pctDocs := 100, samples := [JsVal.num 1], type := "number" } rfl).1,
   (c6_sample_cap "b" [[("a", JsVal.num 1)]] [[("a", JsVal.num 2)]] (some 1) "a"
      { docs := 1, pctDocs := 100, samples := [JsVal.num 1], type := "number" } rfl).2 rfl⟩

/-- C7: the type tag recorded for a field equals typeOf of the value of
that field in the last document containing it (last-write-wins), not a
union of observed types. -/
theorem c7_last_write_type (b : String) (docs : List JsDoc) (ssp : Option Nat)
    (f : String)
    (hd : ∀ d ∈ docs, (d.map Prod.fst).Nodup) :
    (alistFind (generateCustomInferSchema b docs ssp).properties f).map FieldProfile.type =
      (lastValue f docs).map typeOf := by
  rw [generateCustomInferSchema_eq]
  simp only
  rw [alistFind_map_val]
  rw [Option.map_map]
  have : (FieldProfile.type ∘ finalizeProf (inferScan (effSampleSize ssp) 0 [] docs).1) =
      FieldProfile.type := by
    funext p2
    rfl
  rw [this]
  rw [inferScan_type (effSampleSize ssp) 0 [] docs f hd]
  cases hlast : lastValue f docs with
  | some v => rfl
  | none => rfl

/-- C7 witness: a field holding a number then a string is tagged string. -/
theorem c7_last_write_type_witness :
    (alistFind (generateCustomInferSchema "b"
        [[("a", JsVal.num 1)], [("a", JsVal.str "s")]] (some 20)).properties "a").map
      FieldProfile.type =
      (lastValue "a" [[("a", JsVal.num 1)], [("a", JsVal.str "s")]]).map typeOf :=
  c7_last_write_type "b" [[("a", JsVal.num 1)], [("a", JsVal.str "s")]] (some 20) "a"
    (by decide)

/-- C1 counterexample: with candidates a (docPercent 95, 5 samples) and b
(docPercent 90, 3 samples) at threshold 90 and no exclusions, the detector
chooses a even though the non-excluded candidate b has strictly lower
cardinality, because a replacement also requires docPercent at or above the
running best probability. -/
theorem c1_counterexample :
    getDocumentKindDataFromInfer "b" (.custom greedySchema []) 90 =
      .ok (DocumentKindData.mk "b" ["a", "b"] "a" []) ∧
    ("b", greedyProfileB) ∈ greedySchema.properties ∧
    candidateCond 90 greedyProfileB = true ∧
    "b" ∉ ([] : List String) ∧
    greedyProfileB.samples.length < greedyProfileA.samples.length := by
  refine ⟨rfl, by simp [greedySchema], rfl, by simp, by decide⟩

/-- C1 (amended): when all non-excluded candidates share the same
docPercent, the chosen field is a non-excluded candidate of minimal
cardinality of sampled values; in particular, on the status/id example
(both at docPercent 100, threshold 90, no exclusions) the detector chooses
status. -/
theorem c1_lowest_cardinality (b : String) (schema : InferSchema)
    (excl : List String) (prob c : Nat) (r : DocumentKindData)
    (hall : ∀ kp ∈ schema.properties,
      candidateCond prob kp.2 = true → kp.1 ∉ excl → kp.2.pctDocs = c)
    (hex : ∃ kp ∈ schema.properties, candidateCond prob kp.2 = true ∧ kp.1 ∉ excl)
    (hr : getDocumentKindDataFromInfer b (.custom schema excl) prob = .ok r) :
    (∃ kp ∈ schema.properties, candidateCond prob kp.2 = true ∧ kp.1 ∉ excl ∧
      r.documentKind = kp.1 ∧
      ∀ kq ∈ schema.properties, candidateCond prob kq.2 = true → kq.1 ∉ excl →
        kp.2.samples.length ≤ kq.2.samples.length) ∧
    getDocumentKindDataFromInfer "bkt" (.custom statusIdSchema []) 90 =
      .ok (DocumentKindData.mk "bkt" ["status", "id"] "status" []) := by
  constructor
  · rw [getDocumentKindDataFromInfer_custom] at hr
    injection hr with hr
    subst hr
    obtain ⟨kp, hkp, hc, he, hk, hmin⟩ :=
      dkLoop_argmin_init excl prob c schema.properties dkInit rfl rfl hall hex
    exact ⟨kp, hkp, hc, he, hk, hmin⟩
  · rfl

/-- C1 amended witness: on the status/id example the conclusion holds with
the concrete threshold 90 and shared docPercent 100. -/
theorem c1_lowest_cardinality_witness :
    (∃ kp ∈ statusIdSchema.properties, candidateCond 90 kp.2 = true ∧
      kp.1 ∉ ([] : List String) ∧
      (DocumentKindData.mk "bkt" ["status", "id"] "status" []).documentKind = kp.1 ∧
      ∀ kq ∈ statusIdSchema.properties, candidateCond 90 kq.2 = true →
        kq.1 ∉ ([] : List String) →
        kp.2.samples.length ≤ kq.2.samples.length) ∧
    getDocumentKindDataFromInfer "bkt" (.custom statusIdSchema []) 90 =
      .ok (DocumentKindData.mk "bkt" ["status", "id"] "status" []) :=
  c1_lowest_cardinality "bkt" statusIdSchema [] 90 100
    (DocumentKindData.mk "bkt" ["status", "id"] "status" [])
    (by
      intro kp hkp hc he
      have hkp2 : kp = ("status", statusProfile) ∨ kp = ("id", idProfile) := by
        simpa [statusIdSchema] using hkp
      rcases hkp2 with h | h <;> subst h <;> rfl)
    ⟨("status", statusProfile), by simp [statusIdSchema], rfl, by simp⟩
    rfl

/-- C8 counterexample: in alternate mode with two assignments the result
has an empty candidate list, not the property names of the external
inference. -/
theorem c8_counterexample :
    getDocumentKindDataFromInfer "b" (.alternate (some "a = 1,b = 2") "" ["x", "y"]) 90 =
      .ok (DocumentKindData.mk "b" [] "" []) ∧
    ([] : List String) ≠ ["x", "y"] := by
  exact ⟨rfl, by simp⟩

/-- C8 (amended): in alternate mode, when the flavor string splits into
two or more comma-separated assignments the detector returns without
failing, with an empty chosenField, an empty candidate list, and empty
otherDocKinds. -/
theorem c8_multi_assignment (b : String) (fv : Option String) (flavor0 : String)
    (propKeys : List String) (prob : Nat)
    (h : 2 ≤ (jsSplit (',') (effectiveFlavor fv flavor0)).length) :
    getDocumentKindDataFromInfer b (.alternate fv flavor0 propKeys) prob =
      .ok (DocumentKindData.mk b [] "" []) := by
  rw [getDocumentKindDataFromInfer]
  rw [if_neg (by omega)]

/-- C8 amended witness: the two-assignment flavor string gives the empty
best-effort result. -/
theorem c8_multi_assignment_witness :
    getDocumentKindDataFromInfer "b" (.alternate (some "a = 1,b = 2") "" ["x", "y"]) 77 =
      .ok (DocumentKindData.mk "b" [] "" []) :=
  c8_multi_assignment "b" (some "a = 1,b = 2") "" ["x", "y"] 77 (by decide)

/-- C9: in alternate mode a single-assignment flavor string, here the
string: type = "user" (with quoted value), yields chosenField type via the
trailing-value pattern match, with all top-level property names as the
candidate list. -/
theorem c9_single_assignment (b : String) (propKeys : List String) (prob : Nat) :
    getDocumentKindDataFromInfer b (.alternate (some "type = \"user\"") "" propKeys) prob =
      .ok (DocumentKindData.mk b propKeys "type" []) := by
  rfl
